import Mathlib

/-!
Verification of the reactive property model of `lisp/core/has_properties.py`
(Linux Show Player).

The embedding models:

* `Val` — runtime values held by properties.  A value is a scalar
  (`Val.prim`, standing for Python scalars), a plain dictionary
  (`Val.dict`), or a `HasProperties` instance (`Val.obj`).
* A `HasProperties` instance is represented by its fields `VFields`: an
  ordered association of property name, declared default (from the
  `Property` descriptor on the class) and current value.  Python iterates
  property names as an unordered set; the list order here is a fixed
  determinization of that iteration order.
* Signals are modelled by the trace of emissions (`PEvent`): the code of
  `lisp/core/signal.py` is not among the sources, and the claims only
  concern which signals are emitted, with which arguments, in which order.
* `lisp/core/properties.py` is also not among the sources.  Modelled from
  the spec: a `Property` descriptor holds a `default` value and a read of a
  never-set property returns that default (§4.2 of the spec); consequently
  a fresh default instance holds the declared default as the current value
  of every property.  An `InstanceProperty` wrapper holds a value;
  reading delegates to `__pget__` (returning the held value) and writing a
  plain value delegates to `__pset__` (replacing the held value) (§4.3).
-/

mutual
/-- A runtime value: a scalar, a plain dict, or a `HasProperties` object. -/
inductive Val where
  | prim : Int → Val
  | dict : VMap → Val
  | obj : VFields → Val
deriving DecidableEq, Repr

/-- A plain dictionary mapping names to values (insertion ordered, as in
Python). -/
inductive VMap where
  | nil : VMap
  | cons : String → Val → VMap → VMap
deriving DecidableEq, Repr

/-- The fields of a `HasProperties` instance: for each property, its name,
the default declared by the `Property` descriptor, and the current value
stored on the instance. -/
inductive VFields where
  | nil : VFields
  | cons : String → Val → Val → VFields → VFields
deriving DecidableEq, Repr
end

/-- `HasProperties.properties_names` (without a filter): the names of the
registered properties. -/
def properties_names : VFields → List String
  | .nil => []
  | .cons n _ _ rest => n :: properties_names rest

/-- The keys of a plain dictionary. -/
def vmKeys : VMap → List String
  | .nil => []
  | .cons n _ rest => n :: vmKeys rest

/-- The declared defaults, name by name (the class-level `Property`
descriptors). -/
def defaultsOf : VFields → List (String × Val)
  | .nil => []
  | .cons n d _ rest => (n, d) :: defaultsOf rest

/-- `getattr(self, name)` for a registered property name: the current value
stored on the instance. -/
def lookupCur : VFields → String → Option Val
  | .nil, _ => none
  | .cons m _ c rest, n => if m = n then some c else lookupCur rest n

/-- `super().__setattr__(name, value)`: store `value` as the current value
of the property `name` (a no-op on the fields if `name` is not a
registered property; a non-property attribute lives outside the model). -/
def setCur : VFields → String → Val → VFields
  | .nil, _, _ => .nil
  | .cons m d c rest, n, v =>
      if m = n then .cons m d v (setCur rest n v) else .cons m d c (setCur rest n v)

/-- A signal emission observed on one `HasProperties` object:
`aggregate n v` is `self.property_changed.emit(self, n, v)` (the emitting
object itself is the implicit first argument), and `perName n v` is
`self.__changed_signals[n].emit(v)`. -/
inductive PEvent where
  | aggregate : String → Val → PEvent
  | perName : String → Val → PEvent
deriving DecidableEq, Repr

/-- `HasProperties._emit_changed(name, value)`: emit the aggregate signal,
then the per-name signal if it exists (`created` lists the names whose
dedicated signal has been created). -/
def emit_changed (created : List String) (n : String) (v : Val) : List PEvent :=
  .aggregate n v :: (if n ∈ created then [.perName n v] else [])

/-- `HasProperties.__setattr__(name, value)`: store the value, then notify
if `name` is a registered property.  Returns the new fields and the trace
of emissions on this object. -/
def hp_setattr (created : List String) (fs : VFields) (n : String) (v : Val) :
    VFields × List PEvent :=
  (setCur fs n v,
   if n ∈ properties_names fs then emit_changed created n v else [])

mutual
/-- `HasProperties.properties(defaults=...)` (without a filter): serialize
the current state to a name → value dictionary.  A nested `HasProperties`
value is serialized recursively and included when `defaults` is true or
its serialization is non-empty; a non-object value is included when
`defaults` is true or it differs from the declared default. -/
def properties (defaults : Bool) : VFields → VMap
  | .nil => .nil
  | .cons n d c rest =>
    match c with
    | .obj cfs =>
      let v := properties defaults cfs
      if defaults ∨ v ≠ .nil then .cons n (.dict v) (properties defaults rest)
      else properties defaults rest
    | c => if defaults ∨ c ≠ d then .cons n c (properties defaults rest)
           else properties defaults rest
end

/-- `HasProperties.update_properties(properties)`: for each pair in the
dictionary whose name is a registered property, either merge recursively
into an existing nested `HasProperties` value, or assign via
`__setattr__`.  Returns `none` when the Python code would raise (merging a
non-dictionary into a nested object calls `.items()` on it).  The event
list is the trace of emissions on this object itself; emissions of nested
objects are their own and are not part of it. -/
def update_properties (created : List String) (fs : VFields) :
    VMap → Option (VFields × List PEvent)
  | .nil => some (fs, [])
  | .cons n v rest =>
    if n ∈ properties_names fs then
      match lookupCur fs n with
      | some (.obj cfs) =>
        match v with
        | .dict m =>
          match update_properties [] cfs m with
          | some (cfs2, _) =>
              update_properties created (setCur fs n (.obj cfs2)) rest
          | none => none
        | _ => none
      | _ =>
        match update_properties created (setCur fs n v) rest with
        | some (fs2, evs2) => some (fs2, emit_changed created n v ++ evs2)
        | none => none
    else update_properties created fs rest

/-- A fresh default instance of the class described by `fs`: every current
value is the declared default (modelled from the spec: reading a never-set
property returns the descriptor's default, §4.2). -/
def fresh_instance : VFields → VFields
  | .nil => .nil
  | .cons n d _ rest => .cons n d d (fresh_instance rest)

example :
    properties true (.cons "a" (.prim 0) (.prim 5) .nil) =
      .cons "a" (.prim 5) .nil := by decide

example :
    properties false (.cons "a" (.prim 0) (.prim 0) .nil) = .nil := by decide

example :
    update_properties [] (.cons "a" (.prim 0) (.prim 0) .nil)
      (.cons "a" (.prim 7) .nil) =
    some (.cons "a" (.prim 0) (.prim 7) .nil,
          [.aggregate "a" (.prim 7)]) := by decide

mutual
/-- The observable property values of a value: objects are reduced to
their registered names and recursively observable current values
(declared defaults are class-level data, not property values). -/
inductive SVal where
  | prim : Int → SVal
  | dict : SMap → SVal
  | obj : SMap → SVal
deriving DecidableEq, Repr

/-- Name → observable value association. -/
inductive SMap where
  | nil : SMap
  | cons : String → SVal → SMap → SMap
deriving DecidableEq, Repr
end

mutual
/-- Observable-value view of a value. -/
def stripVal : Val → SVal
  | .prim a => .prim a
  | .dict m => .dict (stripMap m)
  | .obj fs => .obj (stripFields fs)

/-- Observable-value view of a dictionary. -/
def stripMap : VMap → SMap
  | .nil => .nil
  | .cons n v rest => .cons n (stripVal v) (stripMap rest)

/-- Observable-value view of an instance: name and observable current
value of every registered property. -/
def stripFields : VFields → SMap
  | .nil => .nil
  | .cons n _ c rest => .cons n (stripVal c) (stripFields rest)
end

mutual
/-- Conformance of a source value to a target value for the round trip:
a source `HasProperties` value must face a target `HasProperties` value
whose fields conform, and a source non-object value must face a
non-object target. -/
def goodVal : Val → Val → Prop
  | .obj sfs, .obj tfs => goodFields sfs tfs
  | .obj _, _ => False
  | .prim _, .obj _ => False
  | .dict _, .obj _ => False
  | _, _ => True

/-- Field-wise conformance: same property names in the same order, no
duplicated names, and pairwise conformant current values. -/
def goodFields : VFields → VFields → Prop
  | .nil, .nil => True
  | .cons n _ c srest, .cons m _ tc trest =>
      n = m ∧ n ∉ properties_names srest ∧ goodVal c tc ∧ goodFields srest trest
  | .nil, .cons _ _ _ _ => False
  | .cons _ _ _ _, .nil => False
end

mutual
/-- Size measure of a value, for strong induction. -/
def vsize : Val → Nat
  | .prim _ => 1
  | .dict m => 1 + msize m
  | .obj fs => 1 + fsize fs

/-- Size measure of a dictionary. -/
def msize : VMap → Nat
  | .nil => 0
  | .cons _ v rest => 1 + vsize v + msize rest

/-- Size measure of instance fields. -/
def fsize : VFields → Nat
  | .nil => 0
  | .cons _ d c rest => 1 + vsize d + vsize c + fsize rest
end

/-- The lazily created per-name signals of one instance
(`HasProperties.__changed_signals`): each created signal is identified by
an allocation id, so that two signals are the same object exactly when
their ids are equal. -/
structure SigCache where
  cache : List (String × Nat)
  nextId : Nat
deriving DecidableEq, Repr

/-- The names whose dedicated signal has been created. -/
def createdNames (st : SigCache) : List String := st.cache.map (·.1)

/-- `self.__changed_signals.get(name)`. -/
def sigLookup : List (String × Nat) → String → Option Nat
  | [], _ => none
  | (m, i) :: rest, n => if m = n then some i else sigLookup rest n

/-- `HasProperties.changed(name)`: raise (`none`) when `name` is not a
registered property; otherwise return the cached dedicated signal,
creating it on first request. -/
def changed (fs : VFields) (st : SigCache) (n : String) :
    Option (Nat × SigCache) :=
  if n ∈ properties_names fs then
    match sigLookup st.cache n with
    | some i => some (i, st)
    | none => some (st.nextId, ⟨st.cache ++ [(n, st.nextId)], st.nextId + 1⟩)
  else none

/-- All leaf properties of an instance hold their declared defaults. -/
def allDefault : VFields → Prop
  | .nil => True
  | .cons _ d c rest =>
      (match c with
       | .obj cfs => allDefault cfs
       | c => c = d) ∧ allDefault rest

/-- The sparse-export inclusion condition of one field, as stated by the
claim: a non-object value is included exactly when it differs from the
declared default, an object value exactly when its own sparse export is
non-empty. -/
def sparseIncluded (d c : Val) : Prop :=
  match c with
  | .obj cfs => properties false cfs ≠ .nil
  | c => c ≠ d

/-- The value exported for a field in sparse mode. -/
def sparseValue (c : Val) : Val :=
  match c with
  | .obj cfs => .dict (properties false cfs)
  | c => c

/-- Dictionary lookup. -/
def vmLookup : VMap → String → Option Val
  | .nil, _ => none
  | .cons m v rest, n => if m = n then some v else vmLookup rest n

/-- A class built by `HasPropertiesMeta`: the ids of all its transitive
proper ancestors that are `HasPropertiesMeta` classes (subclass links are
fixed at definition time), the property names declared in its own
namespace (or set on it post-hoc), and its registry `_properties_`. -/
structure PClass where
  ancs : List Nat
  own : List String
  registry : List String
deriving DecidableEq, Repr

/-- The living classes; a class id is its position (classes are created in
order, so every ancestor id is smaller). -/
abbrev TypeWorld := List PClass

/-- Ancestors of class `i` (empty for an unknown id). -/
def ancsOf (w : TypeWorld) (i : Nat) : List Nat := ((w[i]?).map PClass.ancs).getD []

/-- Registry `_properties_` of class `i`. -/
def regOf (w : TypeWorld) (i : Nat) : List String :=
  ((w[i]?).map PClass.registry).getD []

/-- Own-namespace property names of class `i`. -/
def ownOf (w : TypeWorld) (i : Nat) : List String :=
  ((w[i]?).map PClass.own).getD []

/-- Apply `f` to each class together with its id. -/
def mapClasses (f : Nat → PClass → PClass) : Nat → TypeWorld → TypeWorld
  | _, [] => []
  | i, cl :: rest => f i cl :: mapClasses f (i + 1) rest

/-- `HasPropertiesMeta.__new__`: create a class whose registry is the set
of `Property` names of its own namespace together with the registries of
its `HasPropertiesMeta` bases; its ancestors are the bases and their
ancestors. -/
def defineClass (w : TypeWorld) (bases : List Nat) (own : List String) :
    TypeWorld :=
  w ++ [{ ancs := bases.flatMap (fun b => b :: ancsOf w b),
          own := own,
          registry := own ++ bases.flatMap (regOf w) }]

/-- `HasPropertiesMeta.__setattr__` with a `Property` value:
`_add_property` adds the name to the class and, through the recursive walk
of the live `__subclasses__`, to every transitive subclass. -/
def addProperty (w : TypeWorld) (c : Nat) (p : String) : TypeWorld :=
  mapClasses
    (fun i cl =>
      if i = c then { cl with own := p :: cl.own, registry := p :: cl.registry }
      else if c ∈ cl.ancs then { cl with registry := p :: cl.registry }
      else cl)
    0 w

/-- `HasPropertiesMeta.__delattr__`: `none` when the attribute deletion
itself raises (the name is not in the class's own namespace); otherwise
remove the name from the namespace and, when it is in the class registry,
`_del_property` discards it from the class and every transitive
subclass. -/
def delProperty (w : TypeWorld) (c : Nat) (p : String) : Option TypeWorld :=
  if p ∈ ownOf w c then
    some (mapClasses
      (fun i cl =>
        let cl1 := if i = c then { cl with own := cl.own.filter (fun q => !(q == p)) } else cl
        if (i = c ∨ c ∈ cl.ancs) ∧ p ∈ regOf w c then
          { cl1 with registry := cl1.registry.filter (fun q => !(q == p)) }
        else cl1)
      0 w)
  else none

/-- A registry operation: defining a class, or setting a `Property` on an
existing class post-hoc. -/
inductive RegOp where
  | defineOp : List Nat → List String → RegOp
  | addOp : Nat → String → RegOp
deriving DecidableEq, Repr

/-- Apply one registry operation. -/
def applyRegOp (w : TypeWorld) : RegOp → TypeWorld
  | .defineOp bases own => defineClass w bases own
  | .addOp c p => addProperty w c p

/-- Run a sequence of registry operations. -/
def runRegOps (w : TypeWorld) : List RegOp → TypeWorld
  | [] => w
  | op :: rest => runRegOps (applyRegOp w op) rest

/-- Validity of a sequence of operations: a class definition only uses
already-existing classes as bases. -/
def validSeq : TypeWorld → List RegOp → Prop
  | _, [] => True
  | w, .defineOp bases own :: rest =>
      (∀ b ∈ bases, b < w.length) ∧ validSeq (defineClass w bases own) rest
  | w, .addOp c p :: rest => validSeq (addProperty w c p) rest

/-- Every ancestor id precedes the class id. -/
def ancsBounded (w : TypeWorld) : Prop :=
  ∀ s < w.length, ∀ t ∈ ancsOf w s, t < s

/-- The ancestor relation is transitively closed. -/
def ancsTrans (w : TypeWorld) : Prop :=
  ∀ s < w.length, ∀ t ∈ ancsOf w s, ∀ u ∈ ancsOf w t, u ∈ ancsOf w s

/-- The registry superset invariant: the registry of a subtype contains
the registry of each of its (transitive) supertypes. -/
def regInv (w : TypeWorld) : Prop :=
  ∀ s < w.length, ∀ t ∈ ancsOf w s, ∀ p ∈ regOf w t, p ∈ regOf w s

/-- Structural well-formedness of a world. -/
def worldInv (w : TypeWorld) : Prop := ancsBounded w ∧ ancsTrans w ∧ regInv w

/-- A `HasInstanceProperties` instance: the class-declared properties
(with defaults and current values) and the instance-local properties.
Each instance-local entry models an `InstanceProperty` wrapper stored as
an instance attribute together with membership in `_i_properties_`; the
wrapper is represented by the value it holds (modelled from the spec,
§4.3: `lisp/core/properties.py` is not among the sources — the wrapper
holds a value, `__pget__` returns it, `__pset__` replaces it). -/
structure IObj where
  cls : VFields
  iprops : List (String × Val)
deriving DecidableEq, Repr

/-- `HasInstanceProperties._properties_names`: class registry united with
the instance-local registry. -/
def iPropertiesNames (o : IObj) : List String :=
  properties_names o.cls ++ o.iprops.map (·.1)

/-- Lookup of an instance-local property wrapper. -/
def ipLookup : List (String × Val) → String → Option Val
  | [], _ => none
  | (m, w) :: rest, n => if m = n then some w else ipLookup rest n

/-- `HasInstanceProperties.__getattribute__`: an attribute whose stored
value is an `InstanceProperty` wrapper is transparently unwrapped via
`__pget__`; otherwise ordinary attribute read (here: the current value of
a class-declared property). -/
def igetattr (o : IObj) (n : String) : Option Val :=
  match ipLookup o.iprops n with
  | some v => some v
  | none => lookupCur o.cls n

/-- Replace the value held by the `InstanceProperty` wrapper of `n`. -/
def isetWrapped : List (String × Val) → String → Val → List (String × Val)
  | [], _, _ => []
  | (m, w) :: rest, n, v =>
      if m = n then (m, v) :: isetWrapped rest n v
      else (m, w) :: isetWrapped rest n v

/-- `HasInstanceProperties.__setattr__` with a plain (non-wrapper) value:
a name in `_i_properties_` delegates to the existing wrapper's `__pset__`
and emits `_emit_changed(name, value)`; any other name falls through to
the `HasProperties` behaviour. -/
def isetattr (created : List String) (o : IObj) (n : String) (v : Val) :
    IObj × List PEvent :=
  if n ∈ o.iprops.map (·.1) then
    ({ o with iprops := isetWrapped o.iprops n v }, emit_changed created n v)
  else
    let r := hp_setattr created o.cls n v
    ({ o with cls := r.1 }, r.2)

/-- The heap cells involved in `properties_names`/`_properties_names`:
the live registry set of the class and the set objects handed out to
callers.  `_properties_names` returns `self.__class__._properties_.copy()`
— a newly allocated set with the same contents. -/
structure NamesHeap where
  registry : List String
  handed : List (List String)
deriving DecidableEq, Repr

/-- `HasProperties.properties_names(filter=None)`: allocate a copy of the
live registry, hand it out, and return its cell id. -/
def properties_names_call (h : NamesHeap) : NamesHeap × Nat :=
  ({ h with handed := h.handed ++ [h.registry] }, h.handed.length)

/-- A caller mutates a handed-out set in place (`add`/`remove`/… —
any transformation of its contents). -/
def mutateHanded (h : NamesHeap) (i : Nat) (f : List String → List String) :
    NamesHeap :=
  { h with handed := h.handed.map (fun c => c) |>.set i (f (h.handed.getD i [])) }

/-- Apply a sequence of in-place mutations of handed-out sets. -/
def mutateAll (h : NamesHeap) : List (Nat × (List String → List String)) → NamesHeap
  | [] => h
  | (i, f) :: rest => mutateAll (mutateHanded h i f) rest

/-- The fields of an instance as a list of (name, default, current). -/
def fieldsList : VFields → List (String × Val × Val)
  | .nil => []
  | .cons n d c rest => (n, d, c) :: fieldsList rest

instance (d c : Val) : Decidable (sparseIncluded d c) :=
  match c with
  | .obj cfs => (inferInstance : Decidable (properties false cfs ≠ .nil))
  | .prim a => (inferInstance : Decidable (Val.prim a ≠ d))
  | .dict m => (inferInstance : Decidable (Val.dict m ≠ d))


instance validSeqDec : ∀ (w : TypeWorld) (ops : List RegOp), Decidable (validSeq w ops)
  | _, [] => .isTrue trivial
  | w, .defineOp bases own :: rest =>
      @instDecidableAnd _ _ (List.decidableBAll _ bases)
        (validSeqDec (defineClass w bases own) rest)
  | w, .addOp c p :: rest => validSeqDec (addProperty w c p) rest


/-- Plain induction on `VFields` (recursion only along the tail). -/
@[induction_eliminator]
theorem vfieldsInduc {motive : VFields → Prop} (nil : motive .nil)
    (cons : ∀ n d c rest, motive rest → motive (.cons n d c rest)) :
    ∀ fs, motive fs
  | .nil => nil
  | .cons n d c rest => cons n d c rest (vfieldsInduc nil cons rest)

/-- Plain induction on `VMap` (recursion only along the tail). -/
@[induction_eliminator]
theorem vmapInduc {motive : VMap → Prop} (nil : motive .nil)
    (cons : ∀ n v rest, motive rest → motive (.cons n v rest)) :
    ∀ m, motive m
  | .nil => nil
  | .cons n v rest => cons n v rest (vmapInduc nil cons rest)

theorem properties_names_setCur (fs : VFields) (n : String) (v : Val) :
    properties_names (setCur fs n v) = properties_names fs := by
  induction fs with
  | nil => rfl
  | cons m d c rest ih =>
      by_cases h : m = n <;> simp [setCur, properties_names, h, ih]

theorem defaultsOf_setCur (fs : VFields) (n : String) (v : Val) :
    defaultsOf (setCur fs n v) = defaultsOf fs := by
  induction fs with
  | nil => rfl
  | cons m d c rest ih =>
      by_cases h : m = n <;> simp [setCur, defaultsOf, h, ih]

theorem setCur_not_mem {fs : VFields} {n : String} (v : Val)
    (h : n ∉ properties_names fs) : setCur fs n v = fs := by
  induction fs with
  | nil => rfl
  | cons m d c rest ih =>
      simp only [properties_names, List.mem_cons, not_or] at h
      simp [setCur, Ne.symm h.1, ih h.2]

/-- C6: a mapping whose keys are all unknown is silently skipped: no
error, the fields are returned unchanged, and no signal fires. -/
theorem c6_unknown_names_ignored (cr : List String) (fs : VFields) :
    ∀ m : VMap, (∀ k ∈ vmKeys m, k ∉ properties_names fs) →
      update_properties cr fs m = some (fs, []) := by
  intro m
  induction m with
  | nil => intro _; simp [update_properties]
  | cons n v rest ih =>
      intro h
      have hn : n ∉ properties_names fs := h n (by simp [vmKeys])
      simp only [update_properties, if_neg hn]
      exact ih (fun k hk => h k (by simp [vmKeys]; right; exact hk))

theorem c6_unknown_names_ignored_w :
    update_properties [] (.cons "a" (.prim 0) (.prim 3) .nil)
      (.cons "nonexistent" (.prim 1) .nil) =
    some (.cons "a" (.prim 0) (.prim 3) .nil, []) :=
  c6_unknown_names_ignored [] _ _ (by decide)

theorem sigLookup_append_none {l : List (String × Nat)} {n : String}
    (h : sigLookup l n = none) (i : Nat) :
    sigLookup (l ++ [(n, i)]) n = some i := by
  induction l with
  | nil => simp [sigLookup]
  | cons p rest ih =>
      by_cases hp : p.1 = n
      · exfalso; simp [sigLookup, hp] at h
      · simp only [List.cons_append, sigLookup]
        rw [if_neg hp]
        exact ih (by simpa [sigLookup, hp] using h)

/-- C7: `changed(name)` fails exactly when `name` is not a registered
property; on a registered name it returns a signal that is created
lazily and cached, so a second call returns the same signal object and
leaves the cache unchanged. -/
theorem c7_changed_contract (fs : VFields) (st : SigCache) (n : String) :
    (changed fs st n = none ↔ n ∉ properties_names fs) ∧
    (∀ i st2, changed fs st n = some (i, st2) →
      changed fs st2 n = some (i, st2)) := by
  by_cases hn : n ∈ properties_names fs
  · constructor
    · constructor
      · intro h
        simp only [changed, if_pos hn] at h
        cases hl : sigLookup st.cache n <;> simp [hl] at h
      · intro h; exact absurd hn h
    · intro i st2 h
      simp only [changed, if_pos hn] at h
      cases hl : sigLookup st.cache n with
      | some j =>
          rw [hl] at h
          injection h with h
          injection h with h1 h2
          subst h1 h2
          simp [changed, if_pos hn, hl]
      | none =>
          rw [hl] at h
          injection h with h
          injection h with h1 h2
          subst h1 h2
          simp [changed, if_pos hn, sigLookup_append_none hl]
  · constructor
    · simp [changed, hn]
    · intro i st2 h
      simp [changed, hn] at h

theorem goodFields_names : ∀ {s t : VFields}, goodFields s t →
    properties_names s = properties_names t
  | .nil, .nil, _ => rfl
  | .cons n _ c srest, .cons m _ tc trest, h => by
      obtain ⟨h1, _, _, h4⟩ := h
      simp [properties_names, h1, goodFields_names h4]
  | .nil, .cons _ _ _ _, h => False.elim h
  | .cons _ _ _ _, .nil, h => False.elim h

theorem vmKeys_properties (b : Bool) (s : VFields) :
    ∀ x ∈ vmKeys (properties b s), x ∈ properties_names s := by
  induction s with
  | nil => simp [properties, vmKeys]
  | cons n d c rest ih =>
      intro x hx
      simp only [properties_names, List.mem_cons]
      cases c with
      | obj cfs =>
          simp only [properties] at hx
          by_cases hb : (b = true ∨ properties b cfs ≠ .nil)
          · rw [if_pos hb] at hx
            simp only [vmKeys, List.mem_cons] at hx
            rcases hx with h | h
            · exact Or.inl h
            · exact Or.inr (ih x h)
          · rw [if_neg hb] at hx
            exact Or.inr (ih x hx)
      | prim a =>
          simp only [properties] at hx
          by_cases hb : (b = true ∨ Val.prim a ≠ d)
          · rw [if_pos hb] at hx
            simp only [vmKeys, List.mem_cons] at hx
            rcases hx with h | h
            · exact Or.inl h
            · exact Or.inr (ih x h)
          · rw [if_neg hb] at hx
            exact Or.inr (ih x hx)
      | dict dm =>
          simp only [properties] at hx
          by_cases hb : (b = true ∨ Val.dict dm ≠ d)
          · rw [if_pos hb] at hx
            simp only [vmKeys, List.mem_cons] at hx
            rcases hx with h | h
            · exact Or.inl h
            · exact Or.inr (ih x h)
          · rw [if_neg hb] at hx
            exact Or.inr (ih x hx)

theorem update_skip_head :
    ∀ (E : VMap) {n : String}, n ∉ vmKeys E →
      ∀ (cr : List String) (d x : Val) (trest : VFields),
        update_properties cr (.cons n d x trest) E =
          (update_properties cr trest E).map
            (fun p => (.cons n d x p.1, p.2)) := by
  intro E
  induction E with
  | nil => intro n _ cr d x trest; simp [update_properties]
  | cons k v rest ih =>
      intro n hnk cr d x trest
      have hk : k ≠ n := by
        intro h; exact hnk (by simp [vmKeys, h])
      have hrest : n ∉ vmKeys rest := fun h => hnk (by simp [vmKeys, h])
      have hmemiff : (k ∈ properties_names (VFields.cons n d x trest)) ↔
          (k ∈ properties_names trest) := by
        simp [properties_names, hk]
      by_cases hkm : k ∈ properties_names trest
      · have hkm2 : k ∈ properties_names (VFields.cons n d x trest) :=
          hmemiff.mpr hkm
        have hlk : lookupCur (VFields.cons n d x trest) k = lookupCur trest k := by
          simp [lookupCur, Ne.symm hk]
        simp only [update_properties, if_pos hkm, if_pos hkm2, hlk]
        cases hc : lookupCur trest k with
        | none =>
            have hset : setCur (VFields.cons n d x trest) k v =
                VFields.cons n d x (setCur trest k v) := by
              simp [setCur, Ne.symm hk]
            rw [hset, ih hrest]
            cases hu : update_properties cr (setCur trest k v) rest <;> simp [hu]
        | some c =>
            cases c with
            | obj cfs =>
                cases v with
                | dict m =>
                    cases hnu : update_properties [] cfs m with
                    | none => simp [hnu]
                    | some p =>
                        obtain ⟨cfs2, evsN⟩ := p
                        have hset : setCur (VFields.cons n d x trest) k (.obj cfs2) =
                            VFields.cons n d x (setCur trest k (.obj cfs2)) := by
                          simp [setCur, Ne.symm hk]
                        simp only [hnu]
                        rw [hset, ih hrest]
                | prim a => simp
                | obj ofs => simp
            | prim a =>
                have hset : setCur (VFields.cons n d x trest) k v =
                    VFields.cons n d x (setCur trest k v) := by
                  simp [setCur, Ne.symm hk]
                rw [hset, ih hrest]
                cases hu : update_properties cr (setCur trest k v) rest <;> simp [hu]
            | dict dm =>
                have hset : setCur (VFields.cons n d x trest) k v =
                    VFields.cons n d x (setCur trest k v) := by
                  simp [setCur, Ne.symm hk]
                rw [hset, ih hrest]
                cases hu : update_properties cr (setCur trest k v) rest <;> simp [hu]
      · have hkm2 : k ∉ properties_names (VFields.cons n d x trest) :=
          fun h => hkm (hmemiff.mp h)
        simp only [update_properties, if_neg hkm, if_neg hkm2]
        exact ih hrest cr d x trest

theorem update_scalar_head (cr : List String) (n : String) (tc d2 vv : Val)
    (trest : VFields) (E : VMap) (htc : ∀ u, tc ≠ Val.obj u)
    (hnt : n ∉ properties_names trest) (hkeys : n ∉ vmKeys E) :
    update_properties cr (.cons n d2 tc trest) (.cons n vv E) =
      (update_properties cr trest E).map
        (fun p => (.cons n d2 vv p.1, emit_changed cr n vv ++ p.2)) := by
  have hmem : n ∈ properties_names (VFields.cons n d2 tc trest) := by
    simp [properties_names]
  have hlk : lookupCur (VFields.cons n d2 tc trest) n = some tc := by
    simp [lookupCur]
  have hset : setCur (VFields.cons n d2 tc trest) n vv =
      VFields.cons n d2 vv trest := by
    simp [setCur, setCur_not_mem _ hnt]
  simp only [update_properties, if_pos hmem, hlk]
  cases tc with
  | obj u => exact absurd rfl (htc u)
  | prim a =>
      rw [hset, update_skip_head E hkeys cr d2 vv trest]
      cases hu : update_properties cr trest E <;> simp [hu]
  | dict dm =>
      rw [hset, update_skip_head E hkeys cr d2 vv trest]
      cases hu : update_properties cr trest E <;> simp [hu]

theorem update_obj_head (cr : List String) (n : String) (tfs : VFields)
    (d2 : Val) (trest : VFields) (m E : VMap) (cfs2 : VFields)
    (evsN : List PEvent) (hnt : n ∉ properties_names trest)
    (hkeys : n ∉ vmKeys E)
    (hupN : update_properties [] tfs m = some (cfs2, evsN)) :
    update_properties cr (.cons n d2 (.obj tfs) trest) (.cons n (.dict m) E) =
      (update_properties cr trest E).map
        (fun p => (.cons n d2 (.obj cfs2) p.1, p.2)) := by
  have hmem : n ∈ properties_names (VFields.cons n d2 (Val.obj tfs) trest) := by
    simp [properties_names]
  have hlk : lookupCur (VFields.cons n d2 (Val.obj tfs) trest) n =
      some (Val.obj tfs) := by simp [lookupCur]
  have hset : setCur (VFields.cons n d2 (Val.obj tfs) trest) n (.obj cfs2) =
      VFields.cons n d2 (.obj cfs2) trest := by
    simp [setCur, setCur_not_mem _ hnt]
  simp only [update_properties, if_pos hmem, hlk, hupN]
  rw [hset, update_skip_head E hkeys cr d2 (.obj cfs2) trest]

theorem roundtrip_aux :
    ∀ (k : Nat) (src tgt : VFields) (cr : List String),
      fsize src ≤ k → goodFields src tgt →
      ∃ tgt2 evs,
        update_properties cr tgt (properties true src) = some (tgt2, evs) ∧
          stripFields tgt2 = stripFields src := by
  intro k
  induction k with
  | zero =>
      intro src tgt cr hs hg
      cases src with
      | nil =>
          cases tgt with
          | nil => exact ⟨.nil, [], by simp [properties, update_properties], rfl⟩
          | cons m d2 tc trest => exact False.elim hg
      | cons n d c srest =>
          exfalso
          simp only [fsize] at hs
          omega
  | succ k ih =>
      intro src tgt cr hs hg
      cases src with
      | nil =>
          cases tgt with
          | nil => exact ⟨.nil, [], by simp [properties, update_properties], rfl⟩
          | cons m d2 tc trest => exact False.elim hg
      | cons n d c srest =>
        cases tgt with
        | nil => exact False.elim hg
        | cons m d2 tc trest =>
          obtain ⟨hnm, hnd, hgv, hgr⟩ := hg
          subst hnm
          have hnames : properties_names srest = properties_names trest :=
            goodFields_names hgr
          have hnt : n ∉ properties_names trest := hnames ▸ hnd
          have hkeys : n ∉ vmKeys (properties true srest) :=
            fun h => hnd (vmKeys_properties true srest n h)
          have hsr : fsize srest ≤ k := by
            simp only [fsize] at hs
            omega
          obtain ⟨trest2, evs2, hup2, hstrip2⟩ := ih srest trest cr hsr hgr
          cases c with
          | obj cfs =>
              cases tc with
              | prim b2 => exact False.elim hgv
              | dict dm2 => exact False.elim hgv
              | obj tfs =>
                  have hscfs : fsize cfs ≤ k := by
                    simp only [fsize, vsize] at hs
                    omega
                  obtain ⟨tfs2, evsN, hupN, hstripN⟩ := ih cfs tfs [] hscfs hgv
                  refine ⟨.cons n d2 (.obj tfs2) trest2, evs2, ?_, ?_⟩
                  · have hprops :
                        properties true (VFields.cons n d (Val.obj cfs) srest) =
                          .cons n (.dict (properties true cfs))
                            (properties true srest) := by
                      simp [properties]
                    rw [hprops,
                        update_obj_head cr n tfs d2 trest (properties true cfs)
                          (properties true srest) tfs2 evsN hnt hkeys hupN,
                        hup2]
                    rfl
                  · simp [stripFields, stripVal, hstrip2, hstripN]
          | prim a =>
              have hprops :
                  properties true (VFields.cons n d (Val.prim a) srest) =
                    .cons n (.prim a) (properties true srest) := by
                simp [properties]
              have htc : ∀ u, tc ≠ Val.obj u := by
                intro u hu
                subst hu
                exact False.elim hgv
              refine ⟨.cons n d2 (.prim a) trest2,
                      emit_changed cr n (.prim a) ++ evs2, ?_, ?_⟩
              · rw [hprops,
                    update_scalar_head cr n tc d2 (.prim a) trest
                      (properties true srest) htc hnt hkeys,
                    hup2]
                rfl
              · simp [stripFields, stripVal, hstrip2]
          | dict dm =>
              have hprops :
                  properties true (VFields.cons n d (Val.dict dm) srest) =
                    .cons n (.dict dm) (properties true srest) := by
                simp [properties]
              have htc : ∀ u, tc ≠ Val.obj u := by
                intro u hu
                subst hu
                exact False.elim hgv
              refine ⟨.cons n d2 (.dict dm) trest2,
                      emit_changed cr n (.dict dm) ++ evs2, ?_, ?_⟩
              · rw [hprops,
                    update_scalar_head cr n tc d2 (.dict dm) trest
                      (properties true srest) htc hnt hkeys,
                    hup2]
                rfl
              · simp [stripFields, stripVal, hstrip2]

/-- C1 (amended): the full round trip — exporting with
`properties(defaults=True)` and importing into a fresh default instance
with `update_properties` — restores every registered property value,
nested `HasProperties` values included, for every instance whose values
conform in shape to the fresh default instance of its type: a property
holding a `HasProperties` object faces a fresh default value that is a
`HasProperties` object with the same registered names (recursively), and
a property holding a non-object value faces a non-object default. -/
theorem c1_full_roundtrip (src : VFields)
    (h : goodFields src (fresh_instance src)) :
    ∃ tgt2 evs,
      update_properties [] (fresh_instance src) (properties true src) =
        some (tgt2, evs) ∧ stripFields tgt2 = stripFields src :=
  roundtrip_aux (fsize src) src (fresh_instance src) [] le_rfl h

theorem c1_full_roundtrip_w :
    goodFields
      (.cons "a" (.prim 0) (.prim 5)
        (.cons "s" (.obj (.cons "x" (.prim 0) (.prim 0) .nil))
          (.obj (.cons "x" (.prim 0) (.prim 7) .nil)) .nil))
      (fresh_instance
        (.cons "a" (.prim 0) (.prim 5)
          (.cons "s" (.obj (.cons "x" (.prim 0) (.prim 0) .nil))
            (.obj (.cons "x" (.prim 0) (.prim 7) .nil)) .nil))) ∧
    (∃ tgt2 evs,
      update_properties []
        (fresh_instance
          (.cons "a" (.prim 0) (.prim 5)
            (.cons "s" (.obj (.cons "x" (.prim 0) (.prim 0) .nil))
              (.obj (.cons "x" (.prim 0) (.prim 7) .nil)) .nil)))
        (properties true
          (.cons "a" (.prim 0) (.prim 5)
            (.cons "s" (.obj (.cons "x" (.prim 0) (.prim 0) .nil))
              (.obj (.cons "x" (.prim 0) (.prim 7) .nil)) .nil))) =
        some (tgt2, evs) ∧
      stripFields tgt2 =
        stripFields
          (.cons "a" (.prim 0) (.prim 5)
            (.cons "s" (.obj (.cons "x" (.prim 0) (.prim 0) .nil))
              (.obj (.cons "x" (.prim 0) (.prim 7) .nil)) .nil))) :=
  ⟨by simp [goodFields, goodVal, fresh_instance, properties_names],
   c1_full_roundtrip _
     (by simp [goodFields, goodVal, fresh_instance, properties_names])⟩

/-- C1 counterexample: the round trip as claimed fails for an instance
whose value for property `"a"` (declared default `0`, a scalar) is a
`HasProperties` object: the full export serializes that object to a plain
dictionary, and the import stores the dictionary via attribute assignment
on the fresh instance (whose fresh value is a scalar), so the rebuilt
instance holds a plain dictionary where the original holds a
`HasProperties` object — not equal property values. -/
theorem c1_full_roundtrip_cex :
    update_properties []
      (fresh_instance (.cons "a" (.prim 0)
        (.obj (.cons "x" (.prim 0) (.prim 5) .nil)) .nil))
      (properties true (.cons "a" (.prim 0)
        (.obj (.cons "x" (.prim 0) (.prim 5) .nil)) .nil)) =
      some (.cons "a" (.prim 0) (.dict (.cons "x" (.prim 5) .nil)) .nil,
            [.aggregate "a" (.dict (.cons "x" (.prim 5) .nil))]) ∧
    stripFields (.cons "a" (.prim 0) (.dict (.cons "x" (.prim 5) .nil)) .nil) ≠
      stripFields (.cons "a" (.prim 0)
        (.obj (.cons "x" (.prim 0) (.prim 5) .nil)) .nil) := by
  decide

theorem update_properties_preserves :
    ∀ (m : VMap) (cr : List String) (fs r : VFields) (evs : List PEvent),
      update_properties cr fs m = some (r, evs) →
      properties_names r = properties_names fs ∧
        defaultsOf r = defaultsOf fs := by
  intro m
  induction m with
  | nil =>
      intro cr fs r evs h
      simp only [update_properties, Option.some.injEq, Prod.mk.injEq] at h
      obtain ⟨h1, _⟩ := h
      subst h1
      exact ⟨rfl, rfl⟩
  | cons n v rest ih =>
      intro cr fs r evs h
      by_cases hn : n ∈ properties_names fs
      · simp only [update_properties, if_pos hn] at h
        cases hc : lookupCur fs n with
        | none =>
            simp only [hc] at h
            cases hu : update_properties cr (setCur fs n v) rest with
            | none => simp [hu] at h
            | some p =>
                obtain ⟨fs2, evs2⟩ := p
                simp only [hu, Option.some.injEq, Prod.mk.injEq] at h
                obtain ⟨h1, _⟩ := h
                subst h1
                have := ih cr (setCur fs n v) fs2 evs2 hu
                rwa [properties_names_setCur, defaultsOf_setCur] at this
        | some c =>
            cases c with
            | obj cfs =>
                cases v with
                | prim a => simp [hc] at h
                | obj ofs => simp [hc] at h
                | dict m2 =>
                    simp only [hc] at h
                    cases hnu : update_properties [] cfs m2 with
                    | none => simp [hnu] at h
                    | some p =>
                        obtain ⟨cfs2, evsN⟩ := p
                        simp only [hnu] at h
                        have := ih cr (setCur fs n (.obj cfs2)) r evs h
                        rwa [properties_names_setCur, defaultsOf_setCur] at this
            | prim a =>
                simp only [hc] at h
                cases hu : update_properties cr (setCur fs n v) rest with
                | none => simp [hu] at h
                | some p =>
                    obtain ⟨fs2, evs2⟩ := p
                    simp only [hu, Option.some.injEq, Prod.mk.injEq] at h
                    obtain ⟨h1, _⟩ := h
                    subst h1
                    have := ih cr (setCur fs n v) fs2 evs2 hu
                    rwa [properties_names_setCur, defaultsOf_setCur] at this
            | dict dm =>
                simp only [hc] at h
                cases hu : update_properties cr (setCur fs n v) rest with
                | none => simp [hu] at h
                | some p =>
                    obtain ⟨fs2, evs2⟩ := p
                    simp only [hu, Option.some.injEq, Prod.mk.injEq] at h
                    obtain ⟨h1, _⟩ := h
                    subst h1
                    have := ih cr (setCur fs n v) fs2 evs2 hu
                    rwa [properties_names_setCur, defaultsOf_setCur] at this
      · simp only [update_properties, if_neg hn] at h
        exact ih cr fs r evs h

/-- C5: for a recognized name, `update_properties` merges a mapping into
an existing nested `HasProperties` value by recursively updating that very
object — the stored value remains a `HasProperties` object with the same
registered names and the same declared defaults, not a replacement by the
incoming value — and assigns any value directly through attribute
assignment, firing change notification, when the existing value is not a
`HasProperties` object. -/
theorem c5_update_merge_semantics (cr : List String) (fs : VFields)
    (n : String) (hn : n ∈ properties_names fs) :
    (∀ cfs m cfs2 evsN,
        lookupCur fs n = some (.obj cfs) →
        update_properties [] cfs m = some (cfs2, evsN) →
        update_properties cr fs (.cons n (.dict m) .nil) =
          some (setCur fs n (.obj cfs2), []) ∧
        properties_names cfs2 = properties_names cfs ∧
        defaultsOf cfs2 = defaultsOf cfs) ∧
    (∀ c v, lookupCur fs n = some c → (∀ u, c ≠ .obj u) →
        update_properties cr fs (.cons n v .nil) =
          some (setCur fs n v, emit_changed cr n v)) := by
  constructor
  · intro cfs m cfs2 evsN hc hu
    refine ⟨?_, (update_properties_preserves m [] cfs cfs2 evsN hu).1,
            (update_properties_preserves m [] cfs cfs2 evsN hu).2⟩
    simp only [update_properties, if_pos hn, hc, hu]
  · intro c v hc hno
    cases c with
    | obj u => exact absurd rfl (hno u)
    | prim a => simp [update_properties, if_pos hn, hc]
    | dict dm => simp [update_properties, if_pos hn, hc]

theorem c5_update_merge_semantics_w :
    update_properties []
      (.cons "s" (.prim 0) (.obj (.cons "x" (.prim 0) (.prim 1) .nil)) .nil)
      (.cons "s" (.dict (.cons "x" (.prim 9) .nil)) .nil) =
      some (setCur
              (.cons "s" (.prim 0)
                (.obj (.cons "x" (.prim 0) (.prim 1) .nil)) .nil)
              "s" (.obj (.cons "x" (.prim 0) (.prim 9) .nil)), []) ∧
    properties_names (.cons "x" (.prim 0) (.prim 9) .nil) =
      properties_names (.cons "x" (.prim 0) (.prim 1) .nil) ∧
    defaultsOf (.cons "x" (.prim 0) (.prim 9) .nil) =
      defaultsOf (.cons "x" (.prim 0) (.prim 1) .nil) :=
  (c5_update_merge_semantics []
      (.cons "s" (.prim 0) (.obj (.cons "x" (.prim 0) (.prim 1) .nil)) .nil)
      "s" (by decide)).1
    (.cons "x" (.prim 0) (.prim 1) .nil) (.cons "x" (.prim 9) .nil)
    (.cons "x" (.prim 0) (.prim 9) .nil) [.aggregate "x" (.prim 9)]
    (by decide) (by decide)

/-- C10: updating a recognized property whose current value is a nested
`HasProperties` object emits no signal on the outer object itself: neither
its aggregate `property_changed` nor any per-name signal fires — the
recursive merge bypasses attribute assignment on the outer object. -/
theorem c10_nested_update_no_self_signals (cr : List String) (fs : VFields)
    (n : String) (cfs : VFields) (m : VMap)
    (hc : lookupCur fs n = some (.obj cfs)) :
    ∀ r evs, update_properties cr fs (.cons n (.dict m) .nil) =
      some (r, evs) → evs = [] := by
  intro r evs h
  by_cases hn : n ∈ properties_names fs
  · simp only [update_properties, if_pos hn, hc] at h
    cases hu : update_properties [] cfs m with
    | none => simp [hu] at h
    | some p =>
        obtain ⟨cfs2, evsN⟩ := p
        simp only [hu, update_properties, Option.some.injEq,
                   Prod.mk.injEq] at h
        exact h.2.symm
  · simp only [update_properties, if_neg hn, Option.some.injEq,
               Prod.mk.injEq] at h
    exact h.2.symm

theorem c10_nested_update_no_self_signals_w :
    update_properties ["s"]
      (.cons "s" (.prim 0) (.obj (.cons "x" (.prim 0) (.prim 1) .nil)) .nil)
      (.cons "s" (.dict (.cons "x" (.prim 9) .nil)) .nil) =
      some (.cons "s" (.prim 0)
              (.obj (.cons "x" (.prim 0) (.prim 9) .nil)) .nil, []) ∧
    ([] : List PEvent) = [] :=
  ⟨by decide,
   c10_nested_update_no_self_signals ["s"]
     (.cons "s" (.prim 0) (.obj (.cons "x" (.prim 0) (.prim 1) .nil)) .nil)
     "s" (.cons "x" (.prim 0) (.prim 1) .nil) (.cons "x" (.prim 9) .nil)
     (by decide)
     (.cons "s" (.prim 0) (.obj (.cons "x" (.prim 0) (.prim 9) .nil)) .nil)
     [] (by decide)⟩

theorem sigLookup_mem :
    ∀ {l : List (String × Nat)} {n : String} {i : Nat},
      sigLookup l n = some i → n ∈ l.map (·.1) := by
  intro l
  induction l with
  | nil => intro n i h; simp [sigLookup] at h
  | cons p rest ih =>
      intro n i h
      by_cases hp : p.1 = n
      · simp [hp]
      · simp only [sigLookup, if_neg hp] at h
        simp [ih h]

/-- C4: assignment to a registered property stores the value and then
fires the aggregate signal exactly once with `(self, name, value)`,
followed by the per-name signal exactly once with `(value)` when that
signal has been created via `changed(name)` — in that order — and only
the aggregate signal when no per-name signal exists; and re-assigning the
value just stored fires exactly the same notifications again (assignment
always notifies, with no deduplication). -/
theorem c4_assignment_notifies (fs : VFields) (st : SigCache) (n : String)
    (v : Val) (hn : n ∈ properties_names fs) :
    (∀ i st2, changed fs st n = some (i, st2) →
        hp_setattr (createdNames st2) fs n v =
          (setCur fs n v, [.aggregate n v, .perName n v])) ∧
    (n ∉ createdNames st →
        hp_setattr (createdNames st) fs n v =
          (setCur fs n v, [.aggregate n v])) ∧
    (∀ cr, (hp_setattr cr (setCur fs n v) n v).2 =
        (hp_setattr cr fs n v).2) := by
  refine ⟨?_, ?_, ?_⟩
  · intro i st2 h
    have hcre : n ∈ createdNames st2 := by
      simp only [changed, if_pos hn] at h
      cases hl : sigLookup st.cache n with
      | some j =>
          rw [hl] at h
          injection h with h
          injection h with h1 h2
          subst h2
          exact sigLookup_mem hl
      | none =>
          rw [hl] at h
          injection h with h
          injection h with h1 h2
          subst h2
          simp [createdNames]
    simp [hp_setattr, if_pos hn, emit_changed, hcre]
  · intro hcre
    simp [hp_setattr, if_pos hn, emit_changed, hcre]
  · intro cr
    simp [hp_setattr, properties_names_setCur, hn]

theorem c4_assignment_notifies_w :
    hp_setattr (createdNames ⟨[("a", 0)], 1⟩)
      (.cons "a" (.prim 0) (.prim 3) .nil) "a" (.prim 3) =
      (setCur (.cons "a" (.prim 0) (.prim 3) .nil) "a" (.prim 3),
       [.aggregate "a" (.prim 3), .perName "a" (.prim 3)]) :=
  (c4_assignment_notifies (.cons "a" (.prim 0) (.prim 3) .nil) ⟨[], 0⟩
      "a" (.prim 3) (by decide)).1 0 ⟨[("a", 0)], 1⟩ (by decide)

theorem c7_changed_contract_w :
    changed (.cons "a" (.prim 0) (.prim 3) .nil) ⟨[("a", 0)], 1⟩ "a" =
      some (0, ⟨[("a", 0)], 1⟩) :=
  (c7_changed_contract (.cons "a" (.prim 0) (.prim 3) .nil) ⟨[], 0⟩ "a").2
    0 ⟨[("a", 0)], 1⟩ (by decide)

theorem vmLookup_not_mem {mm : VMap} {n : String} (h : n ∉ vmKeys mm) :
    vmLookup mm n = none := by
  induction mm with
  | nil => rfl
  | cons k v rest ih =>
      simp only [vmKeys, List.mem_cons, not_or] at h
      simp [vmLookup, Ne.symm h.1, ih h.2]

theorem fieldsList_mem_names {fs : VFields} {n : String} {d c : Val}
    (h : (n, d, c) ∈ fieldsList fs) : n ∈ properties_names fs := by
  induction fs with
  | nil => simp [fieldsList] at h
  | cons m dm cm rest ih =>
      simp only [fieldsList, List.mem_cons] at h
      rcases h with h | h
      · injection h with h1 h2
        simp [properties_names, h1]
      · simp [properties_names, ih h]

theorem allDefault_sparse_nil :
    ∀ (fs : VFields), allDefault fs → properties false fs = .nil
  | .nil, _ => rfl
  | .cons n d c rest, h => by
      cases c with
      | obj cfs =>
          simp only [allDefault] at h
          have hnil : properties false cfs = .nil :=
            allDefault_sparse_nil cfs h.1
          simp [properties, hnil, allDefault_sparse_nil rest h.2]
      | prim a =>
          simp only [allDefault] at h
          have h1 : Val.prim a = d := h.1
          simp [properties, h1, allDefault_sparse_nil rest h.2]
      | dict dm =>
          simp only [allDefault] at h
          have h1 : Val.dict dm = d := h.1
          simp [properties, h1, allDefault_sparse_nil rest h.2]

/-- C3: in the sparse export (`defaults=False`), a property whose value is
not a `HasProperties` object is present exactly when its value differs
from the declared default, and a property whose value is a nested
`HasProperties` object is present (as its recursive sparse export)
exactly when that export is non-empty; in particular a nested object all
of whose leaf properties equal their defaults exports nothing and is
entirely omitted from the parent's sparse export. -/
theorem c3_sparse_export (fs : VFields)
    (hnd : (properties_names fs).Nodup) :
    (∀ n d c, (n, d, c) ∈ fieldsList fs →
        vmLookup (properties false fs) n =
          if sparseIncluded d c then some (sparseValue c) else none) ∧
    (allDefault fs → properties false fs = .nil) ∧
    (∀ n d cfs, (n, d, .obj cfs) ∈ fieldsList fs → allDefault cfs →
        vmLookup (properties false fs) n = none) := by
  have main : ∀ n d c, (n, d, c) ∈ fieldsList fs →
      vmLookup (properties false fs) n =
        if sparseIncluded d c then some (sparseValue c) else none := by
    induction fs with
    | nil => intro n d c h; simp [fieldsList] at h
    | cons m dm cm rest ih =>
        intro n d c h
        simp only [properties_names, List.nodup_cons] at hnd
        simp only [fieldsList, List.mem_cons] at h
        rcases h with h | h
        · injection h with h1 h2
          injection h2 with h2 h3
          subst h1 h2 h3
          cases c with
          | obj cfs =>
              by_cases hsp : properties false cfs = VMap.nil
              · have hni : ¬ (false = true ∨ properties false cfs ≠ VMap.nil) := by
                  simp [hsp]
                have hskip : properties false (VFields.cons n d (Val.obj cfs) rest) =
                    properties false rest := by
                  simp only [properties]
                  rw [if_neg hni]
                rw [hskip]
                have : n ∉ vmKeys (properties false rest) :=
                  fun hx => hnd.1 (vmKeys_properties false rest n hx)
                rw [vmLookup_not_mem this]
                have : ¬ sparseIncluded d (Val.obj cfs) := by
                  simp [sparseIncluded, hsp]
                rw [if_neg this]
              · have hyi : (false = true ∨ properties false cfs ≠ VMap.nil) := by
                  simp [hsp]
                have hkeep : properties false (VFields.cons n d (Val.obj cfs) rest) =
                    .cons n (.dict (properties false cfs))
                      (properties false rest) := by
                  simp only [properties]
                  rw [if_pos hyi]
                rw [hkeep]
                have : sparseIncluded d (Val.obj cfs) := hsp
                rw [if_pos this]
                simp [vmLookup, sparseValue]
          | prim a =>
              by_cases hsp : Val.prim a = d
              · have hni : ¬ (false = true ∨ Val.prim a ≠ d) := by simp [hsp]
                have hskip : properties false (VFields.cons n d (Val.prim a) rest) =
                    properties false rest := by
                  simp only [properties]
                  rw [if_neg hni]
                rw [hskip]
                have : n ∉ vmKeys (properties false rest) :=
                  fun hx => hnd.1 (vmKeys_properties false rest n hx)
                rw [vmLookup_not_mem this]
                have : ¬ sparseIncluded d (Val.prim a) := by
                  simp [sparseIncluded, hsp]
                rw [if_neg this]
              · have hyi : (false = true ∨ Val.prim a ≠ d) := by simp [hsp]
                have hkeep : properties false (VFields.cons n d (Val.prim a) rest) =
                    .cons n (.prim a) (properties false rest) := by
                  simp only [properties]
                  rw [if_pos hyi]
                rw [hkeep]
                have : sparseIncluded d (Val.prim a) := hsp
                rw [if_pos this]
                simp [vmLookup, sparseValue]
          | dict dm2 =>
              by_cases hsp : Val.dict dm2 = d
              · have hni : ¬ (false = true ∨ Val.dict dm2 ≠ d) := by simp [hsp]
                have hskip : properties false (VFields.cons n d (Val.dict dm2) rest) =
                    properties false rest := by
                  simp only [properties]
                  rw [if_neg hni]
                rw [hskip]
                have : n ∉ vmKeys (properties false rest) :=
                  fun hx => hnd.1 (vmKeys_properties false rest n hx)
                rw [vmLookup_not_mem this]
                have : ¬ sparseIncluded d (Val.dict dm2) := by
                  simp [sparseIncluded, hsp]
                rw [if_neg this]
              · have hyi : (false = true ∨ Val.dict dm2 ≠ d) := by simp [hsp]
                have hkeep : properties false (VFields.cons n d (Val.dict dm2) rest) =
                    .cons n (.dict dm2) (properties false rest) := by
                  simp only [properties]
                  rw [if_pos hyi]
                rw [hkeep]
                have : sparseIncluded d (Val.dict dm2) := hsp
                rw [if_pos this]
                simp [vmLookup, sparseValue]
        · have hne : n ≠ m := by
            intro he
            subst he
            exact hnd.1 (fieldsList_mem_names h)
          have htail := ih hnd.2 n d c h
          cases cm with
          | obj cfs =>
              by_cases hsp : (false = true ∨ properties false cfs ≠ VMap.nil)
              · have hkeep : properties false (VFields.cons m dm (Val.obj cfs) rest) =
                    .cons m (.dict (properties false cfs))
                      (properties false rest) := by
                  simp only [properties]
                  rw [if_pos hsp]
                rw [hkeep]
                simp only [vmLookup, if_neg (Ne.symm hne).symm]
                rw [if_neg hne.symm]
                exact htail
              · have hskip : properties false (VFields.cons m dm (Val.obj cfs) rest) =
                    properties false rest := by
                  simp only [properties]
                  rw [if_neg hsp]
                rw [hskip]; exact htail
          | prim a =>
              by_cases hsp : (false = true ∨ Val.prim a ≠ dm)
              · have hkeep : properties false (VFields.cons m dm (Val.prim a) rest) =
                    .cons m (.prim a) (properties false rest) := by
                  simp only [properties]
                  rw [if_pos hsp]
                rw [hkeep]
                simp only [vmLookup]
                rw [if_neg hne.symm]
                exact htail
              · have hskip : properties false (VFields.cons m dm (Val.prim a) rest) =
                    properties false rest := by
                  simp only [properties]
                  rw [if_neg hsp]
                rw [hskip]; exact htail
          | dict dm2 =>
              by_cases hsp : (false = true ∨ Val.dict dm2 ≠ dm)
              · have hkeep : properties false (VFields.cons m dm (Val.dict dm2) rest) =
                    .cons m (.dict dm2) (properties false rest) := by
                  simp only [properties]
                  rw [if_pos hsp]
                rw [hkeep]
                simp only [vmLookup]
                rw [if_neg hne.symm]
                exact htail
              · have hskip : properties false (VFields.cons m dm (Val.dict dm2) rest) =
                    properties false rest := by
                  simp only [properties]
                  rw [if_neg hsp]
                rw [hskip]; exact htail
  refine ⟨main, allDefault_sparse_nil fs, ?_⟩
  intro n d cfs hmem had
  have := main n d (.obj cfs) hmem
  rw [if_neg (by simp [sparseIncluded, allDefault_sparse_nil cfs had])] at this
  exact this

theorem c3_sparse_export_w :
    vmLookup
      (properties false
        (.cons "a" (.prim 0) (.prim 5)
          (.cons "b" (.prim 1) (.prim 1)
            (.cons "s" (.prim 0)
              (.obj (.cons "x" (.prim 2) (.prim 2) .nil)) .nil)))) "a" =
      some (sparseValue (.prim 5)) ∧
    vmLookup
      (properties false
        (.cons "a" (.prim 0) (.prim 5)
          (.cons "b" (.prim 1) (.prim 1)
            (.cons "s" (.prim 0)
              (.obj (.cons "x" (.prim 2) (.prim 2) .nil)) .nil)))) "s" =
      none := by
  constructor
  · have h := (c3_sparse_export
        (.cons "a" (.prim 0) (.prim 5)
          (.cons "b" (.prim 1) (.prim 1)
            (.cons "s" (.prim 0)
              (.obj (.cons "x" (.prim 2) (.prim 2) .nil)) .nil)))
        (by decide)).1 "a" (.prim 0) (.prim 5) (by decide)
    rwa [if_pos (by decide)] at h
  · exact (c3_sparse_export
        (.cons "a" (.prim 0) (.prim 5)
          (.cons "b" (.prim 1) (.prim 1)
            (.cons "s" (.prim 0)
              (.obj (.cons "x" (.prim 2) (.prim 2) .nil)) .nil)))
        (by decide)).2.2 "s" (.prim 0)
        (.cons "x" (.prim 2) (.prim 2) .nil) (by decide)
        (by simp [allDefault])

theorem ipLookup_mem {l : List (String × Val)} {n : String} {w : Val}
    (h : ipLookup l n = some w) : n ∈ l.map (·.1) := by
  induction l with
  | nil => simp [ipLookup] at h
  | cons p rest ih =>
      by_cases hp : p.1 = n
      · simp [hp]
      · simp only [ipLookup, if_neg hp] at h
        simp [ih h]

theorem ipLookup_isetWrapped {l : List (String × Val)} {n : String}
    (v : Val) (h : n ∈ l.map (·.1)) :
    ipLookup (isetWrapped l n v) n = some v := by
  induction l with
  | nil => simp at h
  | cons p rest ih =>
      obtain ⟨m, w⟩ := p
      by_cases hp : m = n
      · simp [isetWrapped, ipLookup, hp]
      · simp only [List.map_cons, List.mem_cons] at h
        rcases h with h | h
        · exact absurd h.symm hp
        · simp [isetWrapped, ipLookup, hp, ih h]

/-- C8: for a name in the instance-local registry, attribute read returns
the value held by the `InstanceProperty` wrapper (not the wrapper
itself); assigning a plain value delegates to the existing wrapper's
setter, so a subsequent read returns the new value, and it fires exactly
the change notification a class-declared property assignment fires
(aggregate signal, then the per-name signal when created); and the name
is part of the instance's `properties_names()`. -/
theorem c8_instance_properties (cr : List String) (o : IObj) (n : String)
    (w v : Val) (hmem : ipLookup o.iprops n = some w) :
    igetattr o n = some w ∧
    igetattr (isetattr cr o n v).1 n = some v ∧
    (isetattr cr o n v).2 = emit_changed cr n v ∧
    (∀ fs, n ∈ properties_names fs →
      (hp_setattr cr fs n v).2 = (isetattr cr o n v).2) ∧
    n ∈ iPropertiesNames o := by
  have hkey : n ∈ o.iprops.map (·.1) := ipLookup_mem hmem
  refine ⟨?_, ?_, ?_, ?_, ?_⟩
  · simp [igetattr, hmem]
  · simp [isetattr, if_pos hkey, igetattr, ipLookup_isetWrapped v hkey]
  · simp [isetattr, if_pos hkey]
  · intro fs hfs
    simp [isetattr, if_pos hkey, hp_setattr, if_pos hfs]
  · simp [iPropertiesNames, hkey]

theorem c8_instance_properties_w :
    igetattr ⟨.nil, [("k", .prim 1)]⟩ "k" = some (.prim 1) ∧
    igetattr (isetattr ["k"] ⟨.nil, [("k", .prim 1)]⟩ "k" (.prim 7)).1 "k" =
      some (.prim 7) ∧
    (isetattr ["k"] ⟨.nil, [("k", .prim 1)]⟩ "k" (.prim 7)).2 =
      emit_changed ["k"] "k" (.prim 7) ∧
    (∀ fs, "k" ∈ properties_names fs →
      (hp_setattr ["k"] fs "k" (.prim 7)).2 =
        (isetattr ["k"] ⟨.nil, [("k", .prim 1)]⟩ "k" (.prim 7)).2) ∧
    "k" ∈ iPropertiesNames ⟨.nil, [("k", .prim 1)]⟩ :=
  c8_instance_properties ["k"] ⟨.nil, [("k", .prim 1)]⟩ "k" (.prim 1)
    (.prim 7) (by decide)

theorem getD_append_length :
    ∀ (l : List (List String)) (x : List String),
      (l ++ [x]).getD l.length [] = x := by
  intro l x
  induction l with
  | nil => rfl
  | cons a t _ => simp

theorem mutateAll_registry :
    ∀ (ms : List (Nat × (List String → List String))) (h : NamesHeap),
      (mutateAll h ms).registry = h.registry := by
  intro ms
  induction ms with
  | nil => intro h; rfl
  | cons p rest ih =>
      intro h
      obtain ⟨i, f⟩ := p
      exact ih (mutateHanded h i f)

theorem properties_names_call_returns (x : NamesHeap) :
    (properties_names_call x).1.handed.getD (properties_names_call x).2 [] =
      x.registry :=
  getD_append_length x.handed x.registry

/-- C9: `properties_names` hands the caller a copy of the registry set:
the handed-out cell holds the registry's contents at call time, and no
sequence of in-place mutations of handed-out cells changes the live
registry or the result of a subsequent `properties_names` call. -/
theorem c9_names_copy (h : NamesHeap)
    (muts : List (Nat × (List String → List String))) :
    (properties_names_call h).1.handed.getD (properties_names_call h).2 [] =
      h.registry ∧
    (mutateAll (properties_names_call h).1 muts).registry = h.registry ∧
    (properties_names_call
        (mutateAll (properties_names_call h).1 muts)).1.handed.getD
      (properties_names_call
        (mutateAll (properties_names_call h).1 muts)).2 [] = h.registry := by
  refine ⟨properties_names_call_returns h, ?_, ?_⟩
  · rw [mutateAll_registry]; rfl
  · rw [properties_names_call_returns, mutateAll_registry]; rfl


theorem mapClasses_getElem :
    ∀ (w : TypeWorld) (f : Nat → PClass → PClass) (i j : Nat),
      (mapClasses f i w)[j]? = (w[j]?).map (f (i + j)) := by
  intro w
  induction w with
  | nil => intro f i j; simp [mapClasses]
  | cons cl rest ih =>
      intro f i j
      cases j with
      | zero => simp [mapClasses]
      | succ j =>
          simp only [mapClasses, List.getElem?_cons_succ]
          rw [ih f (i + 1) j]
          have : i + 1 + j = i + (j + 1) := by omega
          rw [this]

theorem mapClasses_getElem0 (w : TypeWorld) (f : Nat → PClass → PClass)
    (j : Nat) : (mapClasses f 0 w)[j]? = (w[j]?).map (f j) := by
  rw [mapClasses_getElem]
  simp

theorem mapClasses_length :
    ∀ (w : TypeWorld) (f : Nat → PClass → PClass) (i : Nat),
      (mapClasses f i w).length = w.length := by
  intro w
  induction w with
  | nil => intro f i; rfl
  | cons cl rest ih => intro f i; simp [mapClasses, ih]

theorem regOf_some {w : TypeWorld} {i : Nat} {cl : PClass}
    (h : w[i]? = some cl) : regOf w i = cl.registry := by
  simp [regOf, h]

theorem regOf_none {w : TypeWorld} {i : Nat} (h : w[i]? = none) :
    regOf w i = [] := by
  simp [regOf, h]

theorem ancsOf_some {w : TypeWorld} {i : Nat} {cl : PClass}
    (h : w[i]? = some cl) : ancsOf w i = cl.ancs := by
  simp [ancsOf, h]

theorem ancsOf_none {w : TypeWorld} {i : Nat} (h : w[i]? = none) :
    ancsOf w i = [] := by
  simp [ancsOf, h]

theorem getElem_lt_of_some {w : TypeWorld} {i : Nat} {cl : PClass}
    (h : w[i]? = some cl) : i < w.length := by
  by_contra hlt
  push_neg at hlt
  rw [List.getElem?_eq_none hlt] at h
  cases h

theorem getElem_le_of_none {w : TypeWorld} {i : Nat} (h : w[i]? = none) :
    w.length ≤ i := by
  by_contra hlt
  push_neg at hlt
  rw [List.getElem?_eq_getElem hlt] at h
  cases h

theorem addProperty_length (w : TypeWorld) (c : Nat) (p : String) :
    (addProperty w c p).length = w.length :=
  mapClasses_length w _ 0

theorem ancsOf_addProperty (w : TypeWorld) (c : Nat) (p : String) (i : Nat) :
    ancsOf (addProperty w c p) i = ancsOf w i := by
  cases h : w[i]? with
  | none =>
      have h2 : (addProperty w c p)[i]? = none := by
        rw [addProperty, mapClasses_getElem0, h]; rfl
      rw [ancsOf_none h, ancsOf_none h2]
  | some cl =>
      have h2 : (addProperty w c p)[i]? = some
          (if i = c then { cl with own := p :: cl.own, registry := p :: cl.registry }
           else if c ∈ cl.ancs then { cl with registry := p :: cl.registry }
           else cl) := by
        rw [addProperty, mapClasses_getElem0, h]; rfl
      rw [ancsOf_some h2, ancsOf_some h]
      by_cases hc : i = c
      · simp [hc]
      · by_cases ha : c ∈ cl.ancs <;> simp [hc, ha]

theorem regOf_addProperty (w : TypeWorld) (c : Nat) (p : String) (i : Nat)
    (hi : i < w.length) :
    regOf (addProperty w c p) i =
      if i = c ∨ c ∈ ancsOf w i then p :: regOf w i else regOf w i := by
  cases h : w[i]? with
  | none => exact absurd hi (by have := getElem_le_of_none h; omega)
  | some cl =>
      have h2 : (addProperty w c p)[i]? = some
          (if i = c then { cl with own := p :: cl.own, registry := p :: cl.registry }
           else if c ∈ cl.ancs then { cl with registry := p :: cl.registry }
           else cl) := by
        rw [addProperty, mapClasses_getElem0, h]; rfl
      rw [regOf_some h2, regOf_some h, ancsOf_some h]
      by_cases hc : i = c
      · simp [hc]
      · by_cases ha : c ∈ cl.ancs
        · simp [hc, ha]
        · simp [hc, ha]

theorem defineClass_length (w : TypeWorld) (bases : List Nat)
    (own : List String) : (defineClass w bases own).length = w.length + 1 := by
  simp [defineClass]

theorem ancsOf_defineClass_lt {w : TypeWorld} {i : Nat} (bases : List Nat)
    (own : List String) (hi : i < w.length) :
    ancsOf (defineClass w bases own) i = ancsOf w i := by
  simp [ancsOf, defineClass, List.getElem?_append, hi]

theorem regOf_defineClass_lt {w : TypeWorld} {i : Nat} (bases : List Nat)
    (own : List String) (hi : i < w.length) :
    regOf (defineClass w bases own) i = regOf w i := by
  simp [regOf, defineClass, List.getElem?_append, hi]

theorem ancsOf_defineClass_self (w : TypeWorld) (bases : List Nat)
    (own : List String) :
    ancsOf (defineClass w bases own) w.length =
      bases.flatMap (fun b => b :: ancsOf w b) := by
  simp [ancsOf, defineClass, List.getElem?_concat_length]

theorem regOf_defineClass_self (w : TypeWorld) (bases : List Nat)
    (own : List String) :
    regOf (defineClass w bases own) w.length =
      own ++ bases.flatMap (regOf w) := by
  simp [regOf, defineClass, List.getElem?_concat_length]

theorem worldInv_nil : worldInv [] := by
  refine ⟨?_, ?_, ?_⟩ <;>
    · intro s hs
      simp at hs

theorem worldInv_defineClass (w : TypeWorld) (bases : List Nat)
    (own : List String) (hw : worldInv w)
    (hb : ∀ b ∈ bases, b < w.length) :
    worldInv (defineClass w bases own) := by
  obtain ⟨hbound, htrans, hreg⟩ := hw
  have hlen := defineClass_length w bases own
  refine ⟨?_, ?_, ?_⟩
  · intro s hs t ht
    rw [hlen] at hs
    by_cases hsl : s < w.length
    · rw [ancsOf_defineClass_lt bases own hsl] at ht
      exact hbound s hsl t ht
    · have hse : s = w.length := by omega
      subst hse
      rw [ancsOf_defineClass_self] at ht
      rw [List.mem_flatMap] at ht
      obtain ⟨b, hbm, htb⟩ := ht
      rcases List.mem_cons.mp htb with h | h
      · subst h; exact hb t hbm
      · have := hbound b (hb b hbm) t h
        have := hb b hbm
        omega
  · intro s hs t ht u hu
    rw [hlen] at hs
    by_cases hsl : s < w.length
    · rw [ancsOf_defineClass_lt bases own hsl] at ht ⊢
      have htl : t < w.length := by
        have := hbound s hsl t ht
        omega
      rw [ancsOf_defineClass_lt bases own htl] at hu
      exact htrans s hsl t ht u hu
    · have hse : s = w.length := by omega
      subst hse
      rw [ancsOf_defineClass_self] at ht ⊢
      rw [List.mem_flatMap] at ht ⊢
      obtain ⟨b, hbm, htb⟩ := ht
      have hbl : b < w.length := hb b hbm
      rcases List.mem_cons.mp htb with h | h
      · subst h
        rw [ancsOf_defineClass_lt bases own hbl] at hu
        exact ⟨t, hbm, List.mem_cons.mpr (Or.inr hu)⟩
      · have htl : t < w.length := by
          have := hbound b hbl t h
          omega
        rw [ancsOf_defineClass_lt bases own htl] at hu
        exact ⟨b, hbm, List.mem_cons.mpr (Or.inr (htrans b hbl t h u hu))⟩
  · intro s hs t ht p hp
    rw [hlen] at hs
    by_cases hsl : s < w.length
    · rw [ancsOf_defineClass_lt bases own hsl] at ht
      have htl : t < w.length := by
        have := hbound s hsl t ht
        omega
      rw [regOf_defineClass_lt bases own htl] at hp
      rw [regOf_defineClass_lt bases own hsl]
      exact hreg s hsl t ht p hp
    · have hse : s = w.length := by omega
      subst hse
      rw [ancsOf_defineClass_self] at ht
      rw [regOf_defineClass_self]
      rw [List.mem_flatMap] at ht
      obtain ⟨b, hbm, htb⟩ := ht
      have hbl : b < w.length := hb b hbm
      rcases List.mem_cons.mp htb with h | h
      · subst h
        rw [regOf_defineClass_lt bases own hbl] at hp
        exact List.mem_append.mpr
          (Or.inr (List.mem_flatMap.mpr ⟨t, hbm, hp⟩))
      · have htl : t < w.length := by
          have := hbound b hbl t h
          omega
        rw [regOf_defineClass_lt bases own htl] at hp
        exact List.mem_append.mpr
          (Or.inr (List.mem_flatMap.mpr ⟨b, hbm, hreg b hbl t h p hp⟩))

theorem worldInv_addProperty (w : TypeWorld) (c : Nat) (p : String)
    (hw : worldInv w) : worldInv (addProperty w c p) := by
  obtain ⟨hbound, htrans, hreg⟩ := hw
  have hlen := addProperty_length w c p
  refine ⟨?_, ?_, ?_⟩
  · intro s hs t ht
    rw [hlen] at hs
    rw [ancsOf_addProperty] at ht
    exact hbound s hs t ht
  · intro s hs t ht u hu
    rw [hlen] at hs
    rw [ancsOf_addProperty] at ht hu ⊢
    exact htrans s hs t ht u hu
  · intro s hs t ht q hq
    rw [hlen] at hs
    rw [ancsOf_addProperty] at ht
    have htl : t < w.length := by
      have := hbound s hs t ht
      omega
    rw [regOf_addProperty w c p t htl] at hq
    rw [regOf_addProperty w c p s hs]
    by_cases htc : t = c ∨ c ∈ ancsOf w t
    · have hsc : s = c ∨ c ∈ ancsOf w s := by
        rcases htc with h | h
        · exact Or.inr (h ▸ ht)
        · exact Or.inr (htrans s hs t ht c h)
      rw [if_pos htc] at hq
      rw [if_pos hsc]
      rcases List.mem_cons.mp hq with h | h
      · exact List.mem_cons.mpr (Or.inl h)
      · exact List.mem_cons.mpr (Or.inr (hreg s hs t ht q h))
    · rw [if_neg htc] at hq
      have hmem : q ∈ regOf w s := hreg s hs t ht q hq
      by_cases hsc : s = c ∨ c ∈ ancsOf w s
      · rw [if_pos hsc]
        exact List.mem_cons.mpr (Or.inr hmem)
      · rw [if_neg hsc]
        exact hmem

theorem validSeq_worldInv :
    ∀ (ops : List RegOp) (w : TypeWorld), worldInv w → validSeq w ops →
      worldInv (runRegOps w ops) := by
  intro ops
  induction ops with
  | nil => intro w hw _; exact hw
  | cons op rest ih =>
      intro w hw hv
      cases op with
      | defineOp bases own =>
          exact ih (defineClass w bases own)
            (worldInv_defineClass w bases own hw hv.1) hv.2
      | addOp c p =>
          exact ih (addProperty w c p) (worldInv_addProperty w c p hw) hv

/-- C2 (amended): after any valid sequence of class definitions and
post-hoc `Property` additions (each addition cascading through the live
subclass graph), the registry of every subtype is a superset of the
registry of each of its transitive supertypes.  The claim's further
assertion that the invariant also survives post-hoc `Property` removal is
false: removal cascades only downward from the class it is performed on,
so deleting a property from a subtype that shadows a supertype's property
of the same name leaves the supertype's registry larger. -/
theorem c2_registry_superset (ops : List RegOp) (hv : validSeq [] ops) :
    regInv (runRegOps [] ops) :=
  (validSeq_worldInv ops [] worldInv_nil hv).2.2

theorem c2_registry_superset_w :
    validSeq [] [.defineOp [] ["p"], .defineOp [0] ["q"], .addOp 0 "r"] ∧
    regInv (runRegOps []
      [.defineOp [] ["p"], .defineOp [0] ["q"], .addOp 0 "r"]) :=
  ⟨by decide,
   c2_registry_superset [.defineOp [] ["p"], .defineOp [0] ["q"], .addOp 0 "r"]
     (by decide)⟩

/-- C2 counterexample: define class 0 with property `"p"`, then class 1
derived from 0 that also declares its own `"p"`; deleting `"p"` from
class 1 cascades to class 1 and its (absent) subclasses, while class 0
keeps `"p"` — so class 1, a subtype of class 0, ends with a registry that
is not a superset of its supertype's registry. -/
theorem c2_registry_superset_cex :
    delProperty (runRegOps [] [.defineOp [] ["p"], .defineOp [0] ["p"]])
        1 "p" =
      some [⟨[], ["p"], ["p"]⟩, ⟨[0], [], []⟩] ∧
    0 ∈ ancsOf [⟨[], ["p"], ["p"]⟩, ⟨[0], [], []⟩] 1 ∧
    "p" ∈ regOf [⟨[], ["p"], ["p"]⟩, ⟨[0], [], []⟩] 0 ∧
    "p" ∉ regOf [⟨[], ["p"], ["p"]⟩, ⟨[0], [], []⟩] 1 := by decide
